import Mathlib

/-!
# MessageQueue / Threadpool: a sequential model

Embedding of `src/message_queue.h` (class `MessageQueue`) and of the worker
loop of `src/threadpool.h` (class `Threadpool`).

* The two `std::queue` objects allocated by the constructor are two heap
  cells; `put_queue_` and `get_queue_` are pointers (of type `Cell`) into
  that heap, exactly as in the source, so that `SwapGetWithPut` is the
  pointer exchange written there and not an exchange of values.
* An operation is executed atomically by a single thread.  A call that
  reaches `condition_variable::wait` with its loop condition true cannot be
  woken by anybody in such a run; it is reported as `Stuck.waits`.
* `size_t` values are only compared, never added, so they are `Nat`.
  `nonblock_` is the `int` of the source; `!nonblock_` is `nonblock_ = 0`.
* A task is a value of an arbitrary type `α`.  Where tasks are called (the
  worker loop), calling one transforms a state `W` outside the pool.
-/

namespace MQ

/-- The two queue objects created by `new` in the constructor. -/
inductive Cell where
  | first
  | second
deriving DecidableEq, Repr

/-- Reasons for which a call yields no result in a single-threaded run. -/
inductive Stuck where
  /-- the thread sleeps in `condition_variable::wait` -/
  | waits
  /-- `front()` or `pop()` on an empty `std::queue` -/
  | undefinedBehaviour
  /-- the loop bound of the model was reached -/
  | outOfFuel
deriving DecidableEq, Repr

/-- Data members of `class MessageQueue` (mutexes and condition variables
carry no data), with the heap holding the two queue objects. -/
structure MessageQueue (α : Type) where
  msg_max_ : Nat
  nonblock_ : Int
  heapFirst : List α
  heapSecond : List α
  put_queue_ : Cell
  get_queue_ : Cell
deriving DecidableEq, Repr

variable {α : Type}

/-- Dereference a queue pointer: `*p`. -/
def MessageQueue.deref (q : MessageQueue α) : Cell → List α
  | .first => q.heapFirst
  | .second => q.heapSecond

/-- Overwrite the queue object a pointer designates. -/
def MessageQueue.assign (q : MessageQueue α) (p : Cell) (xs : List α) : MessageQueue α :=
  match p with
  | .first => { q with heapFirst := xs }
  | .second => { q with heapSecond := xs }

/-- Constructor `MessageQueue(size_t maxlen)`. -/
def MessageQueue.new (maxlen : Nat) : MessageQueue α :=
  { msg_max_ := maxlen, nonblock_ := 0, heapFirst := [], heapSecond := [],
    put_queue_ := .first, get_queue_ := .second }

/-- Producer buffer: `*put_queue_`. -/
def putBuffer (q : MessageQueue α) : List α := q.deref q.put_queue_

/-- Consumer buffer: `*get_queue_`. -/
def getBuffer (q : MessageQueue α) : List α := q.deref q.get_queue_

/-- Number of pending tasks. -/
def pending (q : MessageQueue α) : Nat := (putBuffer q).length + (getBuffer q).length

/-- The two roles designate different queue objects. -/
def WellFormed (q : MessageQueue α) : Prop := q.put_queue_ ≠ q.get_queue_

instance (q : MessageQueue α) : Decidable (WellFormed q) :=
  inferInstanceAs (Decidable (q.put_queue_ ≠ q.get_queue_))

/-- Loop condition of `Put`: `put_queue_->size() >= msg_max_ && !nonblock_`. -/
def putMustWait (q : MessageQueue α) : Prop :=
  (q.deref q.put_queue_).length ≥ q.msg_max_ ∧ q.nonblock_ = 0

instance (q : MessageQueue α) : Decidable (putMustWait q) :=
  inferInstanceAs (Decidable (_ ∧ _))

/-- Method `MessageQueue::Put`.  The `wait` loop either is skipped or never
ends; `get_cv_.notify_one()` changes no data. -/
def Put (q : MessageQueue α) (msg : α) : Except Stuck (MessageQueue α) :=
  if putMustWait q then .error .waits
  else .ok (q.assign q.put_queue_ (q.deref q.put_queue_ ++ [msg]))

/-- Method `MessageQueue::SwapGetWithPut`; returns `cnt` and the new state.
The statements are those of the source in their order: save `get_queue_`,
point it at the producer's queue object, test the `wait` loop, read `cnt`,
point `put_queue_` at the saved object.  `put_cv_.notify_all()` changes no
data. -/
def SwapGetWithPut (q : MessageQueue α) : Except Stuck (Nat × MessageQueue α) :=
  let tmp := q.get_queue_
  let q1 := { q with get_queue_ := q.put_queue_ }
  if (q1.deref q1.put_queue_).length = 0 ∧ q1.nonblock_ = 0 then .error .waits
  else
    let cnt := (q1.deref q1.put_queue_).length
    .ok (cnt, { q1 with put_queue_ := tmp })

/-- The two statements `msg = std::move(get_queue_->front()); get_queue_->pop();`. -/
def frontPop (q : MessageQueue α) : Except Stuck (Bool × α × MessageQueue α) :=
  match q.deref q.get_queue_ with
  | x :: rest => .ok (true, x, q.assign q.get_queue_ rest)
  | [] => .error .undefinedBehaviour

/-- Method `MessageQueue::Get`.  `msg` is the content of the caller's
variable on entry; the result is `ret`, the content of that variable on
return, and the new state. -/
def Get (q : MessageQueue α) (msg : α) : Except Stuck (Bool × α × MessageQueue α) :=
  if (q.deref q.get_queue_).length > 0 then frontPop q
  else
    match SwapGetWithPut q with
    | .error e => .error e
    | .ok (cnt, q1) =>
      if cnt > 0 then frontPop q1
      else .ok (false, msg, q1)

/-- Method `MessageQueue::SetNonBlock`; the notifications change no data. -/
def SetNonBlock (q : MessageQueue α) : MessageQueue α := { q with nonblock_ := 1 }

/-- Method `MessageQueue::SetBlock`. -/
def SetBlock (q : MessageQueue α) : MessageQueue α := { q with nonblock_ := 0 }

/-- A call of one public member function of `MessageQueue`.  `Get` carries
the content of the caller's out variable. -/
inductive Op (α : Type) where
  | Put (msg : α)
  | Get (msg : α)
  | SetNonBlock
  | SetBlock
  | SwapGetWithPut
deriving DecidableEq, Repr

/-- The call is one of the four client operations; `SwapGetWithPut` is the
helper that `Get` invokes. -/
def Op.isClient : Op α → Bool
  | .SwapGetWithPut => false
  | _ => true

/-- A queue together with the record of the calls completed on it. -/
structure Run (α : Type) where
  queue : MessageQueue α
  /-- tasks of the completed `Put` calls, oldest first -/
  puts : List α
  /-- one entry per completed `Get`, oldest first: `some t` when it returned
  true with task `t`, `none` when it returned false -/
  gets : List (Option α)
deriving DecidableEq, Repr

/-- Start of a record. -/
def Run.start (q : MessageQueue α) : Run α := { queue := q, puts := [], gets := [] }

/-- Tasks handed out by the successful `Get` calls, oldest first. -/
def Run.delivered (r : Run α) : List α := r.gets.filterMap id

/-- Perform one call and record it. -/
def step (r : Run α) : Op α → Except Stuck (Run α)
  | .Put msg =>
    match Put r.queue msg with
    | .error e => .error e
    | .ok q => .ok { r with queue := q, puts := r.puts ++ [msg] }
  | .Get msg =>
    match Get r.queue msg with
    | .error e => .error e
    | .ok (ret, out, q) =>
      .ok { r with queue := q, gets := r.gets ++ [if ret then some out else none] }
  | .SetNonBlock => .ok { r with queue := SetNonBlock r.queue }
  | .SetBlock => .ok { r with queue := SetBlock r.queue }
  | .SwapGetWithPut =>
    match SwapGetWithPut r.queue with
    | .error e => .error e
    | .ok (_, q) => .ok { r with queue := q }

/-- Perform a sequence of calls, each one completing before the next starts. -/
def run (r : Run α) : List (Op α) → Except Stuck (Run α)
  | [] => .ok r
  | op :: ops =>
    match step r op with
    | .error e => .error e
    | .ok r1 => run r1 ops

/-- Along the run of the sequence from `r`, every `SetBlock` is called while
the producer buffer holds at most `msg_max_` tasks. -/
def setBlockWithinCapacity (r : Run α) : List (Op α) → Bool
  | [] => true
  | op :: ops =>
    (match op with
      | .SetBlock => decide ((putBuffer r.queue).length ≤ r.queue.msg_max_)
      | _ => true) &&
    (match step r op with
      | .error _ => true
      | .ok r1 => setBlockWithinCapacity r1 ops)

/-! ### Invariants of runs -/

/-- The capacity bound of the producer buffer in blocking mode, kept by every
client call but a `SetBlock` made on a longer producer buffer. -/
def CapacityInv (C : Nat) (r : Run α) : Prop :=
  WellFormed r.queue ∧ r.queue.msg_max_ = C ∧
    (r.queue.nonblock_ = 0 → (putBuffer r.queue).length ≤ C)

/-- State of a run in which the queue has stayed in blocking mode: as long as
no `Get` has handed out a task, every completed `Put` is still in the producer
buffer. -/
def BlockingInv (C : Nat) (r : Run α) : Prop :=
  WellFormed r.queue ∧ r.queue.msg_max_ = C ∧ r.queue.nonblock_ = 0 ∧
    (r.delivered = [] →
      r.gets = [] ∧ putBuffer r.queue = r.puts ∧ getBuffer r.queue = [] ∧ r.puts.length ≤ C)

/-! ### States named in the lemmas -/

/-- State after a `Put` that does not wait. -/
def afterPut (q : MessageQueue α) (msg : α) : MessageQueue α :=
  q.assign q.put_queue_ (q.deref q.put_queue_ ++ [msg])

/-- State after the pointer exchange of `SwapGetWithPut`. -/
def exchanged (q : MessageQueue α) : MessageQueue α :=
  { q with get_queue_ := q.put_queue_, put_queue_ := q.get_queue_ }

/-- State after `get_queue_->pop()`. -/
def afterPop (q : MessageQueue α) : MessageQueue α :=
  q.assign q.get_queue_ (q.deref q.get_queue_).tail

/-! ### The single FIFO queue of the refinement claim -/

/-- Abstraction of the double buffer: consumer buffer followed by producer
buffer. -/
def absFifo (q : MessageQueue α) : List α := getBuffer q ++ putBuffer q

/-- Enqueue on a plain FIFO queue. -/
def Fifo.put (s : List α) (t : α) : List α := s ++ [t]

/-- Dequeue on a plain FIFO queue: the head and the tail, nothing when empty. -/
def Fifo.get : List α → Option (α × List α)
  | [] => none
  | x :: rest => some (x, rest)

/-- A plain FIFO queue with the record of the calls made on it. -/
structure FifoRun (α : Type) where
  contents : List α
  puts : List α
  gets : List (Option α)

/-- One call on the plain FIFO queue; the mode switches do nothing to it. -/
def Fifo.step (s : FifoRun α) : Op α → FifoRun α
  | .Put msg => { s with contents := Fifo.put s.contents msg, puts := s.puts ++ [msg] }
  | .Get _ =>
    match Fifo.get s.contents with
    | none => { s with gets := s.gets ++ [none] }
    | some (x, rest) => { s with contents := rest, gets := s.gets ++ [some x] }
  | _ => s

/-- A sequence of calls on the plain FIFO queue. -/
def Fifo.run (s : FifoRun α) : List (Op α) → FifoRun α
  | [] => s
  | op :: ops => Fifo.run (Fifo.step s op) ops

/-! ### Threadpool -/

/-- Data members of `class Threadpool` read by the worker loop.  The thread
handles in `threads_` and the mutex carry no data of the model. -/
structure Threadpool (α : Type) where
  is_stop_ : Bool
  n_threads_ : Nat
  tasks_queue_ : MessageQueue α
deriving DecidableEq, Repr

/-- Constructor `Threadpool(size_t n_threads, size_t n_tasks)`; the threads
started by `Create` have not been scheduled yet. -/
def Threadpool.new (n_threads n_tasks : Nat) : Threadpool α :=
  { is_stop_ := false, n_threads_ := n_threads, tasks_queue_ := MessageQueue.new n_tasks }

/-- Method `Threadpool::Destroy` up to `locker.unlock()`: the stop flag is
set and the queue is switched to non-blocking mode.  What follows in the
source is the `join` of every worker. -/
def DestroyFlags (p : Threadpool α) : Threadpool α :=
  { p with is_stop_ := true, tasks_queue_ := SetNonBlock p.tasks_queue_ }

/-- Body of the loop of `Threadpool::Routine` for a worker that has passed
the loop test: `Get`, then `break` or `task()`, then back to the loop test
`again`.  `invoke` is the effect of calling a task on the state `W` the
tasks act on; `blank` is the default-constructed `std::function`. -/
def RoutineBody {W : Type} (invoke : α → W → W) (blank : α)
    (again : Threadpool α → W → Except Stuck (Threadpool α × W))
    (p : Threadpool α) (w : W) : Except Stuck (Threadpool α × W) :=
  match Get p.tasks_queue_ blank with
  | .error e => .error e
  | .ok (ret, task, q) =>
    if !ret then .ok ({ p with tasks_queue_ := q }, w)
    else again { p with tasks_queue_ := q } (invoke task w)

/-- Method `Threadpool::Routine` run by one worker, starting at the loop
test `while (!is_stop_)`; the first argument bounds the number of
iterations. -/
def Routine {W : Type} (invoke : α → W → W) (blank : α) :
    Nat → Threadpool α → W → Except Stuck (Threadpool α × W)
  | 0, _, _ => .error .outOfFuel
  | fuel + 1, p, w =>
    if !p.is_stop_ then RoutineBody invoke blank (Routine invoke blank fuel) p w
    else .ok (p, w)

/-! ## Lemmas on the heap and on single calls -/

section Lemmas
variable {α : Type}

@[simp] theorem deref_assign_same (q : MessageQueue α) (p : Cell) (xs : List α) :
    (q.assign p xs).deref p = xs := by
  cases p <;> rfl

theorem deref_assign_ne (q : MessageQueue α) {p p' : Cell} (xs : List α) (h : p ≠ p') :
    (q.assign p xs).deref p' = q.deref p' := by
  cases p <;> cases p' <;> first | rfl | exact absurd rfl h

@[simp] theorem assign_put_queue (q : MessageQueue α) (p : Cell) (xs : List α) :
    (q.assign p xs).put_queue_ = q.put_queue_ := by
  cases p <;> rfl

@[simp] theorem assign_get_queue (q : MessageQueue α) (p : Cell) (xs : List α) :
    (q.assign p xs).get_queue_ = q.get_queue_ := by
  cases p <;> rfl

@[simp] theorem assign_msg_max (q : MessageQueue α) (p : Cell) (xs : List α) :
    (q.assign p xs).msg_max_ = q.msg_max_ := by
  cases p <;> rfl

@[simp] theorem assign_nonblock (q : MessageQueue α) (p : Cell) (xs : List α) :
    (q.assign p xs).nonblock_ = q.nonblock_ := by
  cases p <;> rfl

theorem wellFormed_new (maxlen : Nat) : WellFormed (MessageQueue.new maxlen : MessageQueue α) := by
  intro h
  cases h

theorem Put_eq (q : MessageQueue α) (msg : α) :
    Put q msg = if putMustWait q then .error .waits else .ok (afterPut q msg) := rfl

theorem putMustWait_iff (q : MessageQueue α) :
    putMustWait q ↔ q.msg_max_ ≤ (putBuffer q).length ∧ q.nonblock_ = 0 := Iff.rfl

theorem putBuffer_afterPut (q : MessageQueue α) (msg : α) :
    putBuffer (afterPut q msg) = putBuffer q ++ [msg] := by
  simp [putBuffer, afterPut]

theorem getBuffer_afterPut (q : MessageQueue α) (msg : α) (h : WellFormed q) :
    getBuffer (afterPut q msg) = getBuffer q := by
  simp [getBuffer, afterPut, deref_assign_ne _ _ h]

theorem wellFormed_afterPut (q : MessageQueue α) (msg : α) (h : WellFormed q) :
    WellFormed (afterPut q msg) := by
  simpa [WellFormed, afterPut] using h

theorem SwapGetWithPut_eq (q : MessageQueue α) :
    SwapGetWithPut q =
      if (putBuffer q).length = 0 ∧ q.nonblock_ = 0 then .error .waits
      else .ok ((putBuffer q).length, exchanged q) := rfl

theorem getBuffer_exchanged (q : MessageQueue α) : getBuffer (exchanged q) = putBuffer q := rfl

theorem putBuffer_exchanged (q : MessageQueue α) : putBuffer (exchanged q) = getBuffer q := rfl

theorem wellFormed_exchanged (q : MessageQueue α) (h : WellFormed q) :
    WellFormed (exchanged q) := fun e => h e.symm

theorem getBuffer_afterPop (q : MessageQueue α) :
    getBuffer (afterPop q) = (getBuffer q).tail := by
  simp [getBuffer, afterPop]

theorem putBuffer_afterPop (q : MessageQueue α) (h : WellFormed q) :
    putBuffer (afterPop q) = putBuffer q := by
  simp [putBuffer, afterPop, deref_assign_ne _ _ (Ne.symm h)]

theorem wellFormed_afterPop (q : MessageQueue α) (h : WellFormed q) :
    WellFormed (afterPop q) := by
  simpa [WellFormed, afterPop] using h

theorem frontPop_cons (q : MessageQueue α) (x : α) (rest : List α)
    (h : getBuffer q = x :: rest) : frontPop q = .ok (true, x, afterPop q) := by
  unfold getBuffer at h
  simp [frontPop, afterPop, h]

theorem Get_of_cons (q : MessageQueue α) (msg x : α) (rest : List α)
    (h : getBuffer q = x :: rest) : Get q msg = .ok (true, x, afterPop q) := by
  have h1 : (q.deref q.get_queue_).length > 0 := by
    have : q.deref q.get_queue_ = x :: rest := h
    simp [this]
  simp only [Get, h1, if_true]
  exact frontPop_cons q x rest h

theorem Get_of_nil_cons (q : MessageQueue α) (msg x : α) (rest : List α)
    (hg : getBuffer q = []) (hp : putBuffer q = x :: rest) :
    Get q msg = .ok (true, x, afterPop (exchanged q)) := by
  have h1 : ¬ (q.deref q.get_queue_).length > 0 := by
    have : q.deref q.get_queue_ = [] := hg
    simp [this]
  simp only [Get, h1, if_false, SwapGetWithPut_eq, hp]
  simp
  exact frontPop_cons _ x rest (by rw [getBuffer_exchanged, hp])

theorem Get_of_nil_nil (q : MessageQueue α) (msg : α)
    (hg : getBuffer q = []) (hp : putBuffer q = []) :
    Get q msg = if q.nonblock_ = 0 then .error .waits else .ok (false, msg, exchanged q) := by
  have h1 : ¬ (q.deref q.get_queue_).length > 0 := by
    have : q.deref q.get_queue_ = [] := hg
    simp [this]
  simp only [Get, h1, if_false, SwapGetWithPut_eq, hp]
  by_cases hn : q.nonblock_ = 0 <;> simp [hn]

/-- The three ways in which a `Get` returns. -/
theorem Get_cases (q : MessageQueue α) (msg : α) {ret : Bool} {out : α} {q' : MessageQueue α}
    (h : Get q msg = .ok (ret, out, q')) :
    (∃ rest, getBuffer q = out :: rest ∧ ret = true ∧ q' = afterPop q) ∨
    (∃ rest, getBuffer q = [] ∧ putBuffer q = out :: rest ∧ ret = true ∧
      q' = afterPop (exchanged q)) ∨
    (getBuffer q = [] ∧ putBuffer q = [] ∧ q.nonblock_ ≠ 0 ∧ ret = false ∧ out = msg ∧
      q' = exchanged q) := by
  cases hg : getBuffer q with
  | cons x rest =>
    rw [Get_of_cons q msg x rest hg] at h
    simp only [Except.ok.injEq, Prod.mk.injEq] at h
    obtain ⟨h1, h2, h3⟩ := h
    exact Or.inl ⟨rest, by rw [← h2], h1.symm, h3.symm⟩
  | nil =>
    cases hp : putBuffer q with
    | cons x rest =>
      rw [Get_of_nil_cons q msg x rest hg hp] at h
      simp only [Except.ok.injEq, Prod.mk.injEq] at h
      obtain ⟨h1, h2, h3⟩ := h
      exact Or.inr (Or.inl ⟨rest, rfl, by rw [← h2], h1.symm, h3.symm⟩)
    | nil =>
      rw [Get_of_nil_nil q msg hg hp] at h
      by_cases hn : q.nonblock_ = 0
      · simp [hn] at h
      · simp only [hn, if_false, Except.ok.injEq, Prod.mk.injEq] at h
        obtain ⟨h1, h2, h3⟩ := h
        exact Or.inr (Or.inr ⟨rfl, rfl, hn, h1.symm, h2.symm, h3.symm⟩)

end Lemmas

/-! ## Lemmas on sequences of calls -/

section Runs
variable {α : Type}

theorem run_nil (r : Run α) : run r [] = .ok r := rfl

theorem run_cons_ok (r r1 : Run α) (op : Op α) (ops : List (Op α)) (h : step r op = .ok r1) :
    run r (op :: ops) = run r1 ops := by
  simp [run, h]

theorem run_cons_inv (r r' : Run α) (op : Op α) (ops : List (Op α))
    (h : run r (op :: ops) = .ok r') : ∃ r1, step r op = .ok r1 ∧ run r1 ops = .ok r' := by
  cases hs : step r op with
  | error e => simp [run, hs] at h
  | ok r1 => exact ⟨r1, rfl, by simpa [run, hs] using h⟩

theorem run_append (r r1 r2 : Run α) (ops ops' : List (Op α))
    (h1 : run r ops = .ok r1) (h2 : run r1 ops' = .ok r2) : run r (ops ++ ops') = .ok r2 := by
  induction ops generalizing r with
  | nil =>
    simp only [run, Except.ok.injEq] at h1
    subst h1
    simpa using h2
  | cons op ops ih =>
    obtain ⟨r0, hs, hr⟩ := run_cons_inv r r1 op ops h1
    rw [List.cons_append, run_cons_ok r r0 op _ hs]
    exact ih r0 hr

/-- A property kept by every call of a class of calls is kept by every
sequence of such calls. -/
theorem run_invariant (Inv : Run α → Prop) (P : Op α → Prop)
    (hstep : ∀ r op r', Inv r → P op → step r op = .ok r' → Inv r')
    (ops : List (Op α)) (r r' : Run α) (h0 : Inv r) (hP : ∀ op ∈ ops, P op)
    (h : run r ops = .ok r') : Inv r' := by
  induction ops generalizing r with
  | nil =>
    simp only [run, Except.ok.injEq] at h
    exact h ▸ h0
  | cons op ops ih =>
    obtain ⟨r1, hs, hr⟩ := run_cons_inv r r' op ops h
    exact ih r1 (hstep r op r1 h0 (hP op (List.mem_cons_self _ _)) hs)
      (fun o ho => hP o (List.mem_cons_of_mem _ ho)) hr

theorem step_Put_inv (r r' : Run α) (msg : α) (h : step r (.Put msg) = .ok r') :
    ¬ putMustWait r.queue ∧
      r' = { r with queue := afterPut r.queue msg, puts := r.puts ++ [msg] } := by
  by_cases hw : putMustWait r.queue
  · simp [step, Put_eq, hw] at h
  · simp only [step, Put_eq, hw, if_false, Except.ok.injEq] at h
    exact ⟨hw, h.symm⟩

theorem step_Get_inv (r r' : Run α) (msg : α) (h : step r (.Get msg) = .ok r') :
    ∃ ret out q, Get r.queue msg = .ok (ret, out, q) ∧
      r' = { r with queue := q, gets := r.gets ++ [if ret then some out else none] } := by
  cases hg : Get r.queue msg with
  | error e => simp [step, hg] at h
  | ok v =>
    obtain ⟨ret, out, q⟩ := v
    simp only [step, hg, Except.ok.injEq] at h
    exact ⟨ret, out, q, rfl, h.symm⟩

theorem step_Swap_inv (r r' : Run α) (h : step r .SwapGetWithPut = .ok r') :
    r' = { r with queue := exchanged r.queue } := by
  by_cases hw : (putBuffer r.queue).length = 0 ∧ r.queue.nonblock_ = 0
  · simp [step, SwapGetWithPut_eq, hw] at h
  · simp only [step, SwapGetWithPut_eq, hw, if_false, Except.ok.injEq] at h
    exact h.symm

theorem delivered_append_some (gets : List (Option α)) (x : α) :
    (gets ++ [some x]).filterMap id = gets.filterMap id ++ [x] := by
  simp [List.filterMap_append]

theorem delivered_append_none (gets : List (Option α)) :
    (gets ++ [none]).filterMap id = gets.filterMap id := by
  simp [List.filterMap_append]

end Runs

/-! ## Lemmas on the abstraction to one FIFO queue -/

section Abstraction
variable {α : Type}

/-- A `Get` on a queue holding at least one task hands out the head of
`absFifo` and leaves its tail. -/
theorem Get_absFifo_cons (q : MessageQueue α) (msg x : α) (rest : List α)
    (hq : WellFormed q) (h : absFifo q = x :: rest) :
    ∃ q', Get q msg = .ok (true, x, q') ∧ absFifo q' = rest ∧ WellFormed q' ∧
      q'.msg_max_ = q.msg_max_ ∧ q'.nonblock_ = q.nonblock_ := by
  cases hg : getBuffer q with
  | cons y ys =>
    have hxy : y = x ∧ ys ++ putBuffer q = rest := by
      simpa [absFifo, hg] using h
    refine ⟨afterPop q, ?_, ?_, wellFormed_afterPop q hq, by simp [afterPop], by simp [afterPop]⟩
    · rw [Get_of_cons q msg y ys hg, hxy.1]
    · rw [absFifo, getBuffer_afterPop, putBuffer_afterPop q hq, hg]
      exact hxy.2
  | nil =>
    have hp : putBuffer q = x :: rest := by simpa [absFifo, hg] using h
    have hq2 : WellFormed (exchanged q) := wellFormed_exchanged q hq
    refine ⟨afterPop (exchanged q), Get_of_nil_cons q msg x rest hg hp, ?_,
      wellFormed_afterPop _ hq2, by simp [afterPop, exchanged], by simp [afterPop, exchanged]⟩
    rw [absFifo, getBuffer_afterPop, putBuffer_afterPop _ hq2, getBuffer_exchanged,
      putBuffer_exchanged, hp, hg]
    simp

theorem absFifo_nil (q : MessageQueue α) (h : absFifo q = []) :
    getBuffer q = [] ∧ putBuffer q = [] := by
  simpa [absFifo] using h

/-- Completed `Put` calls append to the producer buffer. -/
theorem run_puts (ts : List α) (r : Run α) (hq : WellFormed r.queue)
    (hcap : (putBuffer r.queue).length + ts.length ≤ r.queue.msg_max_ ∨ r.queue.nonblock_ ≠ 0) :
    ∃ r', run r (ts.map Op.Put) = .ok r' ∧ r'.puts = r.puts ++ ts ∧ r'.gets = r.gets ∧
      putBuffer r'.queue = putBuffer r.queue ++ ts ∧ getBuffer r'.queue = getBuffer r.queue ∧
      WellFormed r'.queue ∧ r'.queue.msg_max_ = r.queue.msg_max_ ∧
      r'.queue.nonblock_ = r.queue.nonblock_ := by
  induction ts generalizing r with
  | nil => exact ⟨r, rfl, by simp, rfl, by simp, rfl, hq, rfl, rfl⟩
  | cons t ts ih =>
    have hw : ¬ putMustWait r.queue := by
      rw [putMustWait_iff]
      rintro ⟨h1, h2⟩
      rcases hcap with h | h
      · simp only [List.length_cons] at h
        omega
      · exact h h2
    have hs : step r (.Put t) =
        .ok { r with queue := afterPut r.queue t, puts := r.puts ++ [t] } := by
      simp [step, Put_eq, hw]
    have hq1 : WellFormed (afterPut r.queue t) := wellFormed_afterPut _ _ hq
    obtain ⟨r', h1, h2, h3, h4, h5, h6, h7, h8⟩ :=
      ih { r with queue := afterPut r.queue t, puts := r.puts ++ [t] } hq1 (by
        simp only [putBuffer_afterPut, List.length_append, List.length_cons, List.length_nil]
        rcases hcap with h | h
        · left
          simp only [List.length_cons] at h
          simp only [afterPut, assign_msg_max]
          omega
        · right
          simpa [afterPut] using h)
    refine ⟨r', ?_, ?_, h3, ?_, ?_, h6, ?_, ?_⟩
    · rw [List.map_cons, run_cons_ok r _ _ _ hs]
      exact h1
    · simpa using h2
    · rw [h4, putBuffer_afterPut]
      simp
    · rw [h5, getBuffer_afterPut _ _ hq]
    · simpa [afterPut] using h7
    · simpa [afterPut] using h8

/-- As many `Get` calls as there are pending tasks hand them out in the
order of `absFifo`. -/
theorem run_gets (outs : List α) (r : Run α) (hq : WellFormed r.queue)
    (hlen : outs.length ≤ (absFifo r.queue).length) :
    ∃ r', run r (outs.map Op.Get) = .ok r' ∧ r'.puts = r.puts ∧
      r'.gets = r.gets ++ ((absFifo r.queue).take outs.length).map some ∧
      absFifo r'.queue = (absFifo r.queue).drop outs.length ∧ WellFormed r'.queue := by
  induction outs generalizing r with
  | nil => exact ⟨r, rfl, rfl, by simp, by simp, hq⟩
  | cons o outs ih =>
    cases ha : absFifo r.queue with
    | nil => simp [ha] at hlen
    | cons x rest =>
      obtain ⟨q', hget, hrest, hq', -, -⟩ := Get_absFifo_cons r.queue o x rest hq ha
      have hs : step r (.Get o) = .ok { r with queue := q', gets := r.gets ++ [some x] } := by
        simp [step, hget]
      obtain ⟨r', h1, h2, h3, h4, h5⟩ :=
        ih { r with queue := q', gets := r.gets ++ [some x] } hq' (by
          simp only [hrest]
          simp only [ha, List.length_cons] at hlen
          omega)
      refine ⟨r', ?_, h2, ?_, ?_, h5⟩
      · rw [List.map_cons, run_cons_ok r _ _ _ hs]
        exact h1
      · rw [h3]
        simp [hrest]
      · rw [h4]
        simp [hrest]

end Abstraction

/-! ## Lemmas on the number of pending tasks and on the capacity -/

section Counting
variable {α : Type}

theorem pending_afterPut (q : MessageQueue α) (msg : α) (hq : WellFormed q) :
    pending (afterPut q msg) = pending q + 1 := by
  simp only [pending, putBuffer_afterPut, getBuffer_afterPut q msg hq, List.length_append,
    List.length_cons, List.length_nil]
  omega

theorem pending_exchanged (q : MessageQueue α) : pending (exchanged q) = pending q := by
  simp only [pending, putBuffer_exchanged, getBuffer_exchanged]
  omega

theorem pending_afterPop (q : MessageQueue α) (x : α) (rest : List α) (hq : WellFormed q)
    (hg : getBuffer q = x :: rest) : pending (afterPop q) + 1 = pending q := by
  simp only [pending, putBuffer_afterPop q hq, getBuffer_afterPop, hg, List.tail_cons,
    List.length_cons]
  omega

/-- Effect of a returning `Get` on the number of pending tasks. -/
theorem pending_Get (q : MessageQueue α) (msg : α) (hq : WellFormed q) {ret : Bool} {out : α}
    {q' : MessageQueue α} (h : Get q msg = .ok (ret, out, q')) :
    WellFormed q' ∧ pending q' + (if ret then 1 else 0) = pending q := by
  rcases Get_cases q msg h with ⟨rest, hg, hr, hq'⟩ | ⟨rest, hg, hp, hr, hq'⟩ |
    ⟨hg, hp, hn, hr, ho, hq'⟩
  · subst hq' hr
    exact ⟨wellFormed_afterPop q hq, pending_afterPop q out rest hq hg⟩
  · subst hq' hr
    have hq2 := wellFormed_exchanged q hq
    refine ⟨wellFormed_afterPop _ hq2, ?_⟩
    have := pending_afterPop (exchanged q) out rest hq2 (by rw [getBuffer_exchanged, hp])
    rw [pending_exchanged] at this
    simpa using this
  · subst hq' hr
    exact ⟨wellFormed_exchanged q hq, by simp [pending_exchanged]⟩

/-- Conservation along one call. -/
theorem step_conservation (r r' : Run α) (op : Op α)
    (h0 : WellFormed r.queue ∧ pending r.queue + r.delivered.length = r.puts.length)
    (h : step r op = .ok r') :
    WellFormed r'.queue ∧ pending r'.queue + r'.delivered.length = r'.puts.length := by
  obtain ⟨hq, hc⟩ := h0
  cases op with
  | Put msg =>
    obtain ⟨-, rfl⟩ := step_Put_inv r r' msg h
    refine ⟨wellFormed_afterPut _ _ hq, ?_⟩
    simp only [Run.delivered, List.length_append, List.length_cons, List.length_nil,
      pending_afterPut _ _ hq] at hc ⊢
    omega
  | Get msg =>
    obtain ⟨ret, out, q, hget, rfl⟩ := step_Get_inv r r' msg h
    obtain ⟨hq', hp⟩ := pending_Get r.queue msg hq hget
    refine ⟨hq', ?_⟩
    cases ret
    · simp only [Run.delivered, Bool.false_eq_true, if_false, delivered_append_none] at hc hp ⊢
      omega
    · simp only [Run.delivered, if_true, delivered_append_some, List.length_append,
        List.length_cons, List.length_nil] at hc hp ⊢
      omega
  | SetNonBlock =>
    simp only [step, Except.ok.injEq] at h
    subst h
    exact ⟨hq, hc⟩
  | SetBlock =>
    simp only [step, Except.ok.injEq] at h
    subst h
    exact ⟨hq, hc⟩
  | SwapGetWithPut =>
    have := step_Swap_inv r r' h
    subst this
    exact ⟨wellFormed_exchanged _ hq, by simpa [Run.delivered, pending_exchanged] using hc⟩

theorem step_capacity (C : Nat) (r r' : Run α) (op : Op α) (h0 : CapacityInv C r)
    (hc : op.isClient = true)
    (hg : op = .SetBlock → (putBuffer r.queue).length ≤ r.queue.msg_max_)
    (h : step r op = .ok r') : CapacityInv C r' := by
  obtain ⟨hq, hm, hb⟩ := h0
  cases op with
  | Put msg =>
    obtain ⟨hw, rfl⟩ := step_Put_inv r r' msg h
    refine ⟨wellFormed_afterPut _ _ hq, by simpa [afterPut] using hm, ?_⟩
    intro hn
    have hn0 : r.queue.nonblock_ = 0 := by simpa [afterPut] using hn
    rw [putMustWait_iff] at hw
    have : ¬ r.queue.msg_max_ ≤ (putBuffer r.queue).length := fun hle => hw ⟨hle, hn0⟩
    simp only [putBuffer_afterPut, List.length_append, List.length_cons, List.length_nil]
    omega
  | Get msg =>
    obtain ⟨ret, out, q, hget, rfl⟩ := step_Get_inv r r' msg h
    rcases Get_cases r.queue msg hget with ⟨rest, hgb, hr, hq'⟩ | ⟨rest, hgb, hp, hr, hq'⟩ |
      ⟨hgb, hp, hn, hr, ho, hq'⟩
    · subst hq'
      refine ⟨wellFormed_afterPop _ hq, by simpa [afterPop] using hm, ?_⟩
      intro hn
      rw [putBuffer_afterPop _ hq]
      exact hb (by simpa [afterPop] using hn)
    · subst hq'
      have hq2 := wellFormed_exchanged _ hq
      refine ⟨wellFormed_afterPop _ hq2, by simpa [afterPop, exchanged] using hm, ?_⟩
      intro _
      rw [putBuffer_afterPop _ hq2, putBuffer_exchanged, hgb]
      simp
    · subst hq'
      refine ⟨wellFormed_exchanged _ hq, by simpa [exchanged] using hm, ?_⟩
      intro _
      rw [putBuffer_exchanged, hgb]
      simp
  | SetNonBlock =>
    simp only [step, Except.ok.injEq] at h
    subst h
    exact ⟨hq, hm, fun hn => by simp [SetNonBlock] at hn⟩
  | SetBlock =>
    simp only [step, Except.ok.injEq] at h
    subst h
    refine ⟨hq, hm, fun _ => ?_⟩
    have := hg rfl
    rw [hm] at this
    exact this
  | SwapGetWithPut => simp [Op.isClient] at hc

theorem run_capacity (C : Nat) (ops : List (Op α)) (r r' : Run α) (h0 : CapacityInv C r)
    (hc : ∀ op ∈ ops, op.isClient = true) (hg : setBlockWithinCapacity r ops = true)
    (h : run r ops = .ok r') : CapacityInv C r' := by
  induction ops generalizing r with
  | nil =>
    simp only [run, Except.ok.injEq] at h
    exact h ▸ h0
  | cons op ops ih =>
    obtain ⟨r1, hs, hr⟩ := run_cons_inv r r' op ops h
    simp only [setBlockWithinCapacity, hs, Bool.and_eq_true] at hg
    refine ih r1 (step_capacity C r r1 op h0 (hc op (List.mem_cons_self _ _)) ?_ hs)
      (fun o ho => hc o (List.mem_cons_of_mem _ ho)) hg.2 hr
    intro hop
    subst hop
    simpa using hg.1

theorem step_blocking (C : Nat) (r r' : Run α) (op : Op α) (h0 : BlockingInv C r)
    (hc : op.isClient = true ∧ op ≠ .SetNonBlock) (h : step r op = .ok r') :
    BlockingInv C r' := by
  obtain ⟨hq, hm, hn, hd⟩ := h0
  cases op with
  | Put msg =>
    obtain ⟨hw, rfl⟩ := step_Put_inv r r' msg h
    refine ⟨wellFormed_afterPut _ _ hq, by simpa [afterPut] using hm,
      by simpa [afterPut] using hn, ?_⟩
    intro hdel
    obtain ⟨h1, h2, h3, h4⟩ := hd hdel
    rw [putMustWait_iff] at hw
    have hlt : ¬ r.queue.msg_max_ ≤ (putBuffer r.queue).length := fun hle => hw ⟨hle, hn⟩
    refine ⟨h1, ?_, ?_, ?_⟩
    · simp only [putBuffer_afterPut, h2]
    · simp only [getBuffer_afterPut _ _ hq, h3]
    · rw [h2] at hlt
      simp only [List.length_append, List.length_cons, List.length_nil]
      omega
  | Get msg =>
    obtain ⟨ret, out, q, hget, rfl⟩ := step_Get_inv r r' msg h
    rcases Get_cases r.queue msg hget with ⟨rest, hgb, hr, hq'⟩ | ⟨rest, hgb, hp, hr, hq'⟩ |
      ⟨hgb, hp, hn', hr, ho, hq'⟩
    · subst hq' hr
      refine ⟨wellFormed_afterPop _ hq, by simpa [afterPop] using hm,
        by simpa [afterPop] using hn, ?_⟩
      intro hdel
      simp [Run.delivered, List.filterMap_append] at hdel
    · subst hq' hr
      refine ⟨wellFormed_afterPop _ (wellFormed_exchanged _ hq),
        by simpa [afterPop, exchanged] using hm, by simpa [afterPop, exchanged] using hn, ?_⟩
      intro hdel
      simp [Run.delivered, List.filterMap_append] at hdel
    · exact absurd hn hn'
  | SetNonBlock => exact absurd rfl hc.2
  | SetBlock =>
    simp only [step, Except.ok.injEq] at h
    subst h
    exact ⟨hq, hm, rfl, hd⟩
  | SwapGetWithPut => simp [Op.isClient] at hc

end Counting

/-! ## Lemmas on the simulation of one FIFO queue and on the worker loop -/

section Simulation
variable {α : Type}

theorem absFifo_afterPut (q : MessageQueue α) (msg : α) (hq : WellFormed q) :
    absFifo (afterPut q msg) = absFifo q ++ [msg] := by
  simp [absFifo, putBuffer_afterPut, getBuffer_afterPut q msg hq]

/-- Effect of a returning `Get` on the abstraction. -/
theorem absFifo_Get (q : MessageQueue α) (msg : α) (hq : WellFormed q) {ret : Bool} {out : α}
    {q' : MessageQueue α} (h : Get q msg = .ok (ret, out, q')) :
    WellFormed q' ∧
      ((ret = true ∧ absFifo q = out :: absFifo q') ∨
       (ret = false ∧ out = msg ∧ absFifo q = [] ∧ absFifo q' = [])) := by
  rcases Get_cases q msg h with ⟨rest, hg, hr, hq'⟩ | ⟨rest, hg, hp, hr, hq'⟩ |
    ⟨hg, hp, hn, hr, ho, hq'⟩
  · subst hq'
    refine ⟨wellFormed_afterPop q hq, Or.inl ⟨hr, ?_⟩⟩
    simp [absFifo, getBuffer_afterPop, putBuffer_afterPop q hq, hg]
  · subst hq'
    have hq2 := wellFormed_exchanged q hq
    refine ⟨wellFormed_afterPop _ hq2, Or.inl ⟨hr, ?_⟩⟩
    simp [absFifo, getBuffer_afterPop, putBuffer_afterPop _ hq2, getBuffer_exchanged,
      putBuffer_exchanged, hg, hp]
  · subst hq'
    refine ⟨wellFormed_exchanged q hq, Or.inr ⟨hr, ho, ?_, ?_⟩⟩
    · simp [absFifo, hg, hp]
    · simp [absFifo, getBuffer_exchanged, putBuffer_exchanged, hg, hp]

/-- One client call of the double buffer is the same call on the plain FIFO
queue. -/
theorem step_simulates (r r' : Run α) (op : Op α) (hq : WellFormed r.queue)
    (hc : op.isClient = true) (h : step r op = .ok r') :
    WellFormed r'.queue ∧
      Fifo.step ⟨absFifo r.queue, r.puts, r.gets⟩ op = ⟨absFifo r'.queue, r'.puts, r'.gets⟩ := by
  cases op with
  | Put msg =>
    obtain ⟨-, rfl⟩ := step_Put_inv r r' msg h
    exact ⟨wellFormed_afterPut _ _ hq, by simp [Fifo.step, Fifo.put, absFifo_afterPut _ _ hq]⟩
  | Get msg =>
    obtain ⟨ret, out, q, hget, rfl⟩ := step_Get_inv r r' msg h
    obtain ⟨hq', hcase⟩ := absFifo_Get r.queue msg hq hget
    refine ⟨hq', ?_⟩
    rcases hcase with ⟨hr, ha⟩ | ⟨hr, -, ha, ha'⟩
    · subst hr
      simp [Fifo.step, Fifo.get, ha]
    · subst hr
      simp [Fifo.step, Fifo.get, ha, ha']
  | SetNonBlock =>
    simp only [step, Except.ok.injEq] at h
    subst h
    exact ⟨hq, rfl⟩
  | SetBlock =>
    simp only [step, Except.ok.injEq] at h
    subst h
    exact ⟨hq, rfl⟩
  | SwapGetWithPut => simp [Op.isClient] at hc

theorem run_simulates (ops : List (Op α)) (r r' : Run α) (hq : WellFormed r.queue)
    (hc : ∀ op ∈ ops, op.isClient = true) (h : run r ops = .ok r') :
    WellFormed r'.queue ∧
      Fifo.run ⟨absFifo r.queue, r.puts, r.gets⟩ ops = ⟨absFifo r'.queue, r'.puts, r'.gets⟩ := by
  induction ops generalizing r with
  | nil =>
    simp only [run, Except.ok.injEq] at h
    subst h
    exact ⟨hq, rfl⟩
  | cons op ops ih =>
    obtain ⟨r1, hs, hr⟩ := run_cons_inv r r' op ops h
    obtain ⟨hq1, hstep⟩ := step_simulates r r1 op hq (hc op (List.mem_cons_self _ _)) hs
    obtain ⟨hq', hrun⟩ := ih r1 hq1 (fun o ho => hc o (List.mem_cons_of_mem _ ho)) hr
    exact ⟨hq', by rw [Fifo.run, hstep, hrun]⟩

/-- Along client calls, what was pending at the start followed by what was
put is what was handed out followed by what is pending. -/
theorem step_order (base : List α) (r r' : Run α) (op : Op α)
    (h0 : WellFormed r.queue ∧ base ++ r.puts = r.delivered ++ absFifo r.queue)
    (hc : op.isClient = true) (h : step r op = .ok r') :
    WellFormed r'.queue ∧ base ++ r'.puts = r'.delivered ++ absFifo r'.queue := by
  obtain ⟨hq, ho⟩ := h0
  cases op with
  | Put msg =>
    obtain ⟨-, rfl⟩ := step_Put_inv r r' msg h
    refine ⟨wellFormed_afterPut _ _ hq, ?_⟩
    simp only [Run.delivered, absFifo_afterPut _ _ hq] at ho ⊢
    rw [← List.append_assoc, ho, List.append_assoc]
  | Get msg =>
    obtain ⟨ret, out, q, hget, rfl⟩ := step_Get_inv r r' msg h
    obtain ⟨hq', hcase⟩ := absFifo_Get r.queue msg hq hget
    refine ⟨hq', ?_⟩
    rcases hcase with ⟨hr, ha⟩ | ⟨hr, -, ha, ha'⟩
    · subst hr
      simp only [Run.delivered, if_true, delivered_append_some] at ho ⊢
      rw [ho, ha]
      simp
    · subst hr
      simp only [Run.delivered, Bool.false_eq_true, if_false, delivered_append_none] at ho ⊢
      rw [ho, ha, ha']
  | SetNonBlock =>
    simp only [step, Except.ok.injEq] at h
    subst h
    exact ⟨hq, ho⟩
  | SetBlock =>
    simp only [step, Except.ok.injEq] at h
    subst h
    exact ⟨hq, ho⟩
  | SwapGetWithPut => simp [Op.isClient] at hc

end Simulation

section Worker
variable {α : Type}

theorem step_Get_front (r : Run α) (o x : α) (rest : List α) (hq : WellFormed r.queue)
    (hg : getBuffer r.queue = x :: rest) :
    ∃ r', step r (.Get o) = .ok r' ∧ r'.puts = r.puts ∧ r'.gets = r.gets ++ [some x] ∧
      getBuffer r'.queue = rest ∧ putBuffer r'.queue = putBuffer r.queue ∧
      WellFormed r'.queue := by
  refine ⟨{ r with queue := afterPop r.queue, gets := r.gets ++ [some x] }, ?_, rfl, rfl, ?_,
    putBuffer_afterPop _ hq, wellFormed_afterPop _ hq⟩
  · simp [step, Get_of_cons r.queue o x rest hg]
  · simp [getBuffer_afterPop, hg]

theorem step_Get_swap (r : Run α) (o x : α) (rest : List α) (hq : WellFormed r.queue)
    (hg : getBuffer r.queue = []) (hp : putBuffer r.queue = x :: rest) :
    ∃ r', step r (.Get o) = .ok r' ∧ r'.puts = r.puts ∧ r'.gets = r.gets ++ [some x] ∧
      getBuffer r'.queue = rest ∧ putBuffer r'.queue = [] ∧ WellFormed r'.queue ∧
      r'.queue.msg_max_ = r.queue.msg_max_ := by
  have hq2 := wellFormed_exchanged _ hq
  refine ⟨{ r with queue := afterPop (exchanged r.queue), gets := r.gets ++ [some x] }, ?_,
    rfl, rfl, ?_, ?_, wellFormed_afterPop _ hq2, by simp [afterPop, exchanged]⟩
  · simp [step, Get_of_nil_cons r.queue o x rest hg hp]
  · simp [getBuffer_afterPop, getBuffer_exchanged, hp]
  · simp [putBuffer_afterPop _ hq2, putBuffer_exchanged, hg]

theorem Routine_succ {W : Type} (invoke : α → W → W) (blank : α) (fuel : Nat)
    (p : Threadpool α) (w : W) :
    Routine invoke blank (fuel + 1) p w =
      if !p.is_stop_ then RoutineBody invoke blank (Routine invoke blank fuel) p w
      else .ok (p, w) := rfl

end Worker

/-! ## The claims -/

section Claims
variable {α : Type}

/-- C1 (FIFO).  On an empty queue on which no `Put` has to wait (the number of
tasks is at most the capacity, or the queue is in non-blocking mode), the calls
`Put(t1) ... Put(tN)` followed by `N` calls of `Get` all complete; every `Get`
returns true and the i-th `Get` hands out `ti`; the queue is empty again. -/
theorem C1_fifo_order (q : MessageQueue α) (ts outs : List α) (hq : WellFormed q)
    (hg : getBuffer q = []) (hp : putBuffer q = [])
    (hcap : ts.length ≤ q.msg_max_ ∨ q.nonblock_ ≠ 0) (hn : outs.length = ts.length) :
    ∃ r, run (Run.start q) (ts.map Op.Put ++ outs.map Op.Get) = .ok r ∧
      r.puts = ts ∧ r.gets = ts.map some ∧
      getBuffer r.queue = [] ∧ putBuffer r.queue = [] := by
  obtain ⟨r1, h1, h2, h3, h4, h5, h6, -, -⟩ :=
    run_puts ts (Run.start q) hq (by
      rcases hcap with h | h
      · left
        simp only [Run.start, hp, List.length_nil]
        omega
      · exact Or.inr h)
  have habs : absFifo r1.queue = ts := by
    rw [absFifo, h4, h5]
    simp [Run.start, hg, hp]
  obtain ⟨r2, k1, k2, k3, k4, -⟩ := run_gets outs r1 h6 (by rw [habs, hn])
  refine ⟨r2, run_append _ r1 r2 _ _ h1 k1, ?_, ?_, ?_⟩
  · rw [k2, h2]
    simp [Run.start]
  · rw [k3, h3, habs, hn]
    simp [Run.start]
  · apply absFifo_nil
    rw [k4, habs, hn]
    simp

/-- Witness of C1: three tasks on a fresh queue of capacity three. -/
theorem C1_fifo_order_witness :
    ∃ r, run (Run.start (MessageQueue.new 3)) ([7, 8, 9].map Op.Put ++ [0, 0, 0].map Op.Get)
        = .ok r ∧
      r.puts = [7, 8, 9] ∧ r.gets = [7, 8, 9].map some ∧
      getBuffer r.queue = [] ∧ putBuffer r.queue = [] :=
  C1_fifo_order (MessageQueue.new 3) [7, 8, 9] [0, 0, 0] (by decide) rfl rfl
    (Or.inl (by decide)) rfl

/-- C2 (contract of `Get`).  On a well-formed queue: (i) with a non-empty
consumer buffer `Get` returns true with that buffer's front task, removes
exactly that task and leaves the producer buffer untouched; (ii) with an empty
consumer buffer and a non-empty producer buffer `Get` exchanges the two
pointers and returns true with the front of the former producer buffer, which
it removes; (iii) a `Get` that returns does so with false exactly when both
buffers are empty and the queue is in non-blocking mode, the caller's variable
is then untouched and both buffers are still empty, and such a `Get` does
return; `Get` waits exactly when both buffers are empty in blocking mode. -/
theorem C2_Get_contract (q : MessageQueue α) (msg : α) (hq : WellFormed q) :
    (∀ x rest, getBuffer q = x :: rest →
      ∃ q', Get q msg = .ok (true, x, q') ∧ getBuffer q' = rest ∧
        putBuffer q' = putBuffer q) ∧
    (∀ x rest, getBuffer q = [] → putBuffer q = x :: rest →
      ∃ q', Get q msg = .ok (true, x, q') ∧ getBuffer q' = rest ∧ putBuffer q' = [] ∧
        q'.get_queue_ = q.put_queue_ ∧ q'.put_queue_ = q.get_queue_) ∧
    (∀ ret out q', Get q msg = .ok (ret, out, q') →
      (ret = false ↔ getBuffer q = [] ∧ putBuffer q = [] ∧ q.nonblock_ ≠ 0) ∧
      (ret = false → out = msg ∧ getBuffer q' = [] ∧ putBuffer q' = [])) ∧
    (getBuffer q = [] → putBuffer q = [] → q.nonblock_ ≠ 0 →
      ∃ q', Get q msg = .ok (false, msg, q')) ∧
    (Get q msg = .error .waits ↔ getBuffer q = [] ∧ putBuffer q = [] ∧ q.nonblock_ = 0) := by
  refine ⟨?_, ?_, ?_, ?_, ?_⟩
  · intro x rest hg
    refine ⟨afterPop q, Get_of_cons q msg x rest hg, ?_, putBuffer_afterPop q hq⟩
    rw [getBuffer_afterPop, hg]
    rfl
  · intro x rest hg hp
    have hq2 : WellFormed (exchanged q) := wellFormed_exchanged q hq
    refine ⟨afterPop (exchanged q), Get_of_nil_cons q msg x rest hg hp, ?_, ?_,
      by simp [afterPop, exchanged], by simp [afterPop, exchanged]⟩
    · rw [getBuffer_afterPop, getBuffer_exchanged, hp]
      rfl
    · rw [putBuffer_afterPop _ hq2, putBuffer_exchanged, hg]
  · intro ret out q' h
    rcases Get_cases q msg h with ⟨rest, hg, hr, -⟩ | ⟨rest, hg, hp, hr, -⟩ | ⟨hg, hp, hn, hr, ho, hq'⟩
    · simp [hr, hg]
    · simp [hr, hp]
    · refine ⟨⟨fun _ => ⟨hg, hp, hn⟩, fun _ => hr⟩, fun _ => ⟨ho, ?_, ?_⟩⟩
      · rw [hq', getBuffer_exchanged, hp]
      · rw [hq', putBuffer_exchanged, hg]
  · intro hg hp hn
    exact ⟨exchanged q, by rw [Get_of_nil_nil q msg hg hp, if_neg hn]⟩
  · constructor
    · intro h
      cases hg : getBuffer q with
      | cons x rest => rw [Get_of_cons q msg x rest hg] at h; cases h
      | nil =>
        cases hp : putBuffer q with
        | cons x rest => rw [Get_of_nil_cons q msg x rest hg hp] at h; cases h
        | nil =>
          rw [Get_of_nil_nil q msg hg hp] at h
          by_cases hn : q.nonblock_ = 0
          · exact ⟨rfl, rfl, hn⟩
          · rw [if_neg hn] at h; cases h
    · rintro ⟨hg, hp, hn⟩
      rw [Get_of_nil_nil q msg hg hp, if_pos hn]

/-- Witness of C2: a queue in blocking mode whose consumer buffer is empty
and whose producer buffer holds the tasks 4 and 5. -/
theorem C2_Get_contract_witness :
    WellFormed (⟨8, 0, [4, 5], [], .first, .second⟩ : MessageQueue Nat) ∧
    ∃ q', Get (⟨8, 0, [4, 5], [], .first, .second⟩ : MessageQueue Nat) 0 = .ok (true, 4, q') ∧
      getBuffer q' = [5] ∧ putBuffer q' = [] ∧
      q'.get_queue_ = .first ∧ q'.put_queue_ = .second :=
  ⟨by decide,
    (C2_Get_contract (⟨8, 0, [4, 5], [], .first, .second⟩ : MessageQueue Nat) 0
      (by decide)).2.1 4 [5] rfl rfl⟩

/-- C6 (non-blocking release).  `SetNonBlock` puts the queue in non-blocking
mode, and on every queue in that mode neither `Put` nor `Get` waits: `Put`
returns having appended its task at the back of the producer buffer, whatever
the length of that buffer and the capacity, and `Get` returns, with false and
the caller's variable untouched when both buffers are empty. -/
theorem C6_nonblocking_release (q : MessageQueue α) (msg out : α) :
    (SetNonBlock q).nonblock_ ≠ 0 ∧
    putBuffer (SetNonBlock q) = putBuffer q ∧ getBuffer (SetNonBlock q) = getBuffer q ∧
    (SetNonBlock q).msg_max_ = q.msg_max_ ∧
    ∀ s : MessageQueue α, s.nonblock_ ≠ 0 →
      (∃ s', Put s msg = .ok s' ∧ putBuffer s' = putBuffer s ++ [msg] ∧
        (WellFormed s → getBuffer s' = getBuffer s)) ∧
      (∃ res, Get s out = .ok res) ∧
      (getBuffer s = [] → putBuffer s = [] →
        ∃ s', Get s out = .ok (false, out, s') ∧ getBuffer s' = [] ∧ putBuffer s' = []) := by
  refine ⟨by simp [SetNonBlock], rfl, rfl, rfl, ?_⟩
  intro s hs
  refine ⟨?_, ?_, ?_⟩
  · have hw : ¬ putMustWait s := fun h => hs h.2
    exact ⟨afterPut s msg, by rw [Put_eq, if_neg hw], putBuffer_afterPut s msg,
      getBuffer_afterPut s msg⟩
  · cases hg : getBuffer s with
    | cons x rest => exact ⟨_, Get_of_cons s out x rest hg⟩
    | nil =>
      cases hp : putBuffer s with
      | cons x rest => exact ⟨_, Get_of_nil_cons s out x rest hg hp⟩
      | nil => exact ⟨_, by rw [Get_of_nil_nil s out hg hp, if_neg hs]⟩
  · intro hg hp
    refine ⟨exchanged s, by rw [Get_of_nil_nil s out hg hp, if_neg hs], ?_, ?_⟩
    · rw [getBuffer_exchanged, hp]
    · rw [putBuffer_exchanged, hg]

/-- C9 (postcondition of the swap).  When the producer buffer is non-empty or
the queue is in non-blocking mode, `SwapGetWithPut` returns the length the
producer buffer has on entry; afterwards the consumer buffer is the former
producer buffer and the producer buffer is the former consumer buffer (empty
when the consumer buffer was empty, as it is when `Get` calls the swap);
capacity, mode flag and the two queue objects themselves are unchanged. -/
theorem C9_swap_postcondition (q : MessageQueue α)
    (h : putBuffer q ≠ [] ∨ q.nonblock_ ≠ 0) :
    ∃ q', SwapGetWithPut q = .ok ((putBuffer q).length, q') ∧
      getBuffer q' = putBuffer q ∧ putBuffer q' = getBuffer q ∧
      (getBuffer q = [] → putBuffer q' = []) ∧
      q'.get_queue_ = q.put_queue_ ∧ q'.put_queue_ = q.get_queue_ ∧
      q'.msg_max_ = q.msg_max_ ∧ q'.nonblock_ = q.nonblock_ ∧
      q'.heapFirst = q.heapFirst ∧ q'.heapSecond = q.heapSecond := by
  have hw : ¬ ((putBuffer q).length = 0 ∧ q.nonblock_ = 0) := by
    rintro ⟨h1, h2⟩
    rcases h with h | h
    · exact h (List.length_eq_zero.mp h1)
    · exact h h2
  refine ⟨exchanged q, by rw [SwapGetWithPut_eq, if_neg hw], rfl, rfl, ?_,
    rfl, rfl, rfl, rfl, rfl, rfl⟩
  intro hg
  rw [putBuffer_exchanged, hg]

/-- Witness of C9: a full producer buffer in blocking mode. -/
theorem C9_swap_postcondition_witness :
    (putBuffer (⟨2, 0, [4, 5], [3], .first, .second⟩ : MessageQueue Nat) ≠ [] ∨
      (⟨2, 0, [4, 5], [3], .first, .second⟩ : MessageQueue Nat).nonblock_ ≠ 0) ∧
    ∃ q', SwapGetWithPut (⟨2, 0, [4, 5], [3], .first, .second⟩ : MessageQueue Nat)
        = .ok (2, q') ∧
      getBuffer q' = [4, 5] ∧ putBuffer q' = [3] :=
  ⟨Or.inl (by decide),
    let ⟨q', h1, h2, h3, _⟩ :=
      C9_swap_postcondition (⟨2, 0, [4, 5], [3], .first, .second⟩ : MessageQueue Nat)
        (Or.inl (by decide))
    ⟨q', h1, h2, h3⟩⟩

/-- C3 (conservation).  With `pending` the sum of the lengths of the two
buffers, on a well-formed queue a completed `Put` raises `pending` by one, a
`Get` returning true lowers it by one, and a `Get` returning false,
`SwapGetWithPut`, `SetNonBlock` and `SetBlock` leave it unchanged; hence after
every sequence of completed calls (direct calls of `SwapGetWithPut` included) on
a freshly constructed queue, `pending` is the number of completed `Put` calls
minus the number of `Get` calls that returned true. -/
theorem C3_conservation (q : MessageQueue α) (hq : WellFormed q) :
    (∀ msg q', Put q msg = .ok q' → pending q' = pending q + 1) ∧
    (∀ msg out q', Get q msg = .ok (true, out, q') → pending q' + 1 = pending q) ∧
    (∀ msg out q', Get q msg = .ok (false, out, q') → pending q' = pending q) ∧
    (∀ cnt q', SwapGetWithPut q = .ok (cnt, q') → pending q' = pending q) ∧
    pending (SetNonBlock q) = pending q ∧ pending (SetBlock q) = pending q ∧
    (∀ (C : Nat) (ops : List (Op α)) (r : Run α),
      run (Run.start (MessageQueue.new C)) ops = .ok r →
        r.delivered.length ≤ r.puts.length ∧
        pending r.queue = r.puts.length - r.delivered.length) := by
  refine ⟨?_, ?_, ?_, ?_, rfl, rfl, ?_⟩
  · intro msg q' h
    by_cases hw : putMustWait q
    · simp [Put_eq, hw] at h
    · simp only [Put_eq, hw, if_false, Except.ok.injEq] at h
      rw [← h]
      exact pending_afterPut q msg hq
  · intro msg out q' h
    simpa using (pending_Get q msg hq h).2
  · intro msg out q' h
    simpa using (pending_Get q msg hq h).2
  · intro cnt q' h
    by_cases hw : (putBuffer q).length = 0 ∧ q.nonblock_ = 0
    · simp [SwapGetWithPut_eq, hw] at h
    · simp only [SwapGetWithPut_eq, hw, if_false, Except.ok.injEq, Prod.mk.injEq] at h
      rw [← h.2]
      exact pending_exchanged q
  · intro C ops r h
    have hinv := run_invariant
      (fun r : Run α =>
        WellFormed r.queue ∧ pending r.queue + r.delivered.length = r.puts.length)
      (fun _ => True) (fun r op r' h0 _ hs => step_conservation r r' op h0 hs)
      ops (Run.start (MessageQueue.new C)) r ⟨wellFormed_new C, rfl⟩ (fun _ _ => trivial) h
    have := hinv.2
    omega

/-- Witness of C3: a `Put` on a queue holding three tasks. -/
theorem C3_conservation_witness :
    WellFormed (⟨8, 0, [4, 5], [3], .first, .second⟩ : MessageQueue Nat) ∧
    ∀ q', Put (⟨8, 0, [4, 5], [3], .first, .second⟩ : MessageQueue Nat) 6 = .ok q' →
      pending q' = 3 + 1 :=
  ⟨by decide,
    (C3_conservation (⟨8, 0, [4, 5], [3], .first, .second⟩ : MessageQueue Nat)
      (by decide)).1 6⟩

/-- C4, the claim as stated fails: on a fresh queue of capacity 1 the completed
calls `SetNonBlock, Put(10), Put(20), SetBlock` lead to a queue in blocking mode
whose producer buffer holds two tasks. -/
theorem C4_capacity_counterexample :
    ∃ r : Run Nat,
      run (Run.start (MessageQueue.new 1)) [.SetNonBlock, .Put 10, .Put 20, .SetBlock] = .ok r ∧
      r.queue.msg_max_ = 1 ∧ r.queue.nonblock_ = 0 ∧ putBuffer r.queue = [10, 20] ∧
      ¬ (putBuffer r.queue).length ≤ 1 :=
  ⟨⟨⟨1, 0, [10, 20], [], .first, .second⟩, [10, 20], []⟩, rfl, rfl, rfl, rfl, by decide⟩

/-- C4 as amended.  After every sequence of completed `Put`, `Get`,
`SetNonBlock` and `SetBlock` calls on a freshly constructed queue of capacity
`C` in which each `SetBlock` is called while the producer buffer holds at most
`C` tasks, a queue in blocking mode has at most `C` tasks in its producer
buffer. -/
theorem C4_capacity_guarded (C : Nat) (ops : List (Op α)) (r : Run α)
    (hc : ∀ op ∈ ops, op.isClient = true)
    (hg : setBlockWithinCapacity (Run.start (MessageQueue.new C)) ops = true)
    (h : run (Run.start (MessageQueue.new C)) ops = .ok r) (hb : r.queue.nonblock_ = 0) :
    r.queue.msg_max_ = C ∧ (putBuffer r.queue).length ≤ C := by
  have hinv := run_capacity C ops (Run.start (MessageQueue.new C)) r
    ⟨wellFormed_new C, rfl, fun _ => Nat.zero_le _⟩ hc hg h
  exact ⟨hinv.2.1, hinv.2.2 hb⟩

/-- Witness of the amended C4: capacity 2, with a `SetBlock` made on a
producer buffer of two tasks. -/
theorem C4_capacity_guarded_witness :
    setBlockWithinCapacity (Run.start (MessageQueue.new 2))
      [.SetNonBlock, .Put 10, .Put 20, .SetBlock, .Get 0] = true ∧
    run (Run.start (MessageQueue.new 2)) [.SetNonBlock, .Put 10, .Put 20, .SetBlock, .Get 0]
      = .ok (⟨⟨2, 0, [20], [], .second, .first⟩, [10, 20], [some 10]⟩ : Run Nat) ∧
    (⟨2, 0, [20], [], .second, .first⟩ : MessageQueue Nat).msg_max_ = 2 ∧
    (putBuffer (⟨2, 0, [20], [], .second, .first⟩ : MessageQueue Nat)).length ≤ 2 :=
  ⟨rfl, rfl,
    C4_capacity_guarded 2 [.SetNonBlock, .Put 10, .Put 20, .SetBlock, .Get 0]
      ⟨⟨2, 0, [20], [], .second, .first⟩, [10, 20], [some 10]⟩
      (by decide) rfl rfl rfl⟩

/-- C7 (capacity enforcement).  On a freshly constructed queue of capacity `C`
that stays in blocking mode (no `SetNonBlock`), under any sequence of completed
client calls (`Put`, `Get`, `SetBlock`; the swap runs inside `Get` only): the
queue is still in blocking mode; as long as no `Get` has handed out a task, at
most `C` `Put` calls have completed and all their tasks are in the producer
buffer, so that after `C` completed `Put` calls the loop condition of `Put`
holds and a further `Put` waits; and if `C` or more `Put` calls have completed
and the loop condition of `Put` is false, a `Get` has handed out a task. -/
theorem C7_capacity_enforcement (C : Nat) (ops : List (Op α)) (r : Run α)
    (hops : ∀ op ∈ ops, op.isClient = true ∧ op ≠ .SetNonBlock)
    (h : run (Run.start (MessageQueue.new C)) ops = .ok r) :
    r.queue.nonblock_ = 0 ∧ r.queue.msg_max_ = C ∧
    (r.delivered = [] →
      r.puts.length ≤ C ∧ putBuffer r.queue = r.puts ∧
      (r.puts.length = C → putMustWait r.queue ∧ ∀ msg, Put r.queue msg = .error .waits)) ∧
    (C ≤ r.puts.length → ¬ putMustWait r.queue → r.delivered ≠ []) := by
  have hinv := run_invariant (BlockingInv C) (fun op => op.isClient = true ∧ op ≠ .SetNonBlock)
    (fun r op r' h0 hc hs => step_blocking C r r' op h0 hc hs)
    ops (Run.start (MessageQueue.new C)) r
    ⟨wellFormed_new C, rfl, rfl, fun _ => ⟨rfl, rfl, rfl, Nat.zero_le _⟩⟩ hops h
  obtain ⟨-, hm, hn, hd⟩ := hinv
  have key : r.delivered = [] → r.puts.length = C → putMustWait r.queue := by
    intro hdel hlen
    obtain ⟨-, h2, -, -⟩ := hd hdel
    rw [putMustWait_iff, h2, hm, hlen]
    exact ⟨le_refl _, hn⟩
  refine ⟨hn, hm, ?_, ?_⟩
  · intro hdel
    obtain ⟨-, h2, -, h4⟩ := hd hdel
    refine ⟨h4, h2, fun hlen => ⟨key hdel hlen, fun msg => ?_⟩⟩
    rw [Put_eq, if_pos (key hdel hlen)]
  · intro hC hw hdel
    obtain ⟨-, h2, -, h4⟩ := hd hdel
    exact hw (key hdel (Nat.le_antisymm h4 hC))

/-- Witness of C7: capacity 2 and two completed `Put` calls. -/
theorem C7_capacity_enforcement_witness :
    run (Run.start (MessageQueue.new 2)) [.Put 10, .SetBlock, .Put 20]
      = .ok (⟨⟨2, 0, [10, 20], [], .first, .second⟩, [10, 20], []⟩ : Run Nat) ∧
    Put (⟨2, 0, [10, 20], [], .first, .second⟩ : MessageQueue Nat) 30 = .error .waits :=
  ⟨rfl,
    (((C7_capacity_enforcement 2 [.Put 10, .SetBlock, .Put 20]
      (⟨⟨2, 0, [10, 20], [], .first, .second⟩, [10, 20], []⟩ : Run Nat)
      (by decide) rfl).2.2.1 rfl).2.2 rfl).2 30⟩

/-- C10 (refinement of one FIFO queue).  With `absFifo q` the consumer buffer
followed by the producer buffer, on a well-formed queue: a completed `Put(t)`
is the enqueue of `t` on `absFifo q`; a `Get` returning true is the dequeue of
`absFifo q`, handing out its head and leaving its tail; a `Get` returns false
only when `absFifo q` is empty.  Hence every completed sequence of client calls
gives the same record of results, call by call, as the same sequence on the
plain FIFO queue started at `absFifo q`, and the tasks handed out followed by
the tasks still pending are the tasks pending at the start followed by the
tasks put, in that order, also across swaps. -/
theorem C10_fifo_refinement (q : MessageQueue α) (hq : WellFormed q) :
    (∀ t q', Put q t = .ok q' → absFifo q' = Fifo.put (absFifo q) t) ∧
    (∀ msg x q', Get q msg = .ok (true, x, q') → Fifo.get (absFifo q) = some (x, absFifo q')) ∧
    (∀ msg x q', Get q msg = .ok (false, x, q') →
      Fifo.get (absFifo q) = none ∧ absFifo q = [] ∧ absFifo q' = []) ∧
    (∀ (ops : List (Op α)) (r : Run α), (∀ op ∈ ops, op.isClient = true) →
      run (Run.start q) ops = .ok r →
        Fifo.run ⟨absFifo q, [], []⟩ ops = ⟨absFifo r.queue, r.puts, r.gets⟩ ∧
        absFifo q ++ r.puts = r.delivered ++ absFifo r.queue) := by
  refine ⟨?_, ?_, ?_, ?_⟩
  · intro t q' h
    by_cases hw : putMustWait q
    · simp [Put_eq, hw] at h
    · simp only [Put_eq, hw, if_false, Except.ok.injEq] at h
      rw [← h]
      exact absFifo_afterPut q t hq
  · intro msg x q' h
    rcases (absFifo_Get q msg hq h).2 with ⟨-, ha⟩ | ⟨hr, -⟩
    · rw [ha]
      rfl
    · cases hr
  · intro msg x q' h
    rcases (absFifo_Get q msg hq h).2 with ⟨hr, -⟩ | ⟨-, -, ha, ha'⟩
    · cases hr
    · exact ⟨by rw [ha]; rfl, ha, ha'⟩
  · intro ops r hc h
    refine ⟨(run_simulates ops (Run.start q) r hq hc h).2, ?_⟩
    exact (run_invariant
      (fun r : Run α => WellFormed r.queue ∧ absFifo q ++ r.puts = r.delivered ++ absFifo r.queue)
      (fun op => op.isClient = true)
      (fun r op r' h0 hc hs => step_order (absFifo q) r r' op h0 hc hs)
      ops (Run.start q) r ⟨hq, by simp [Run.start, Run.delivered]⟩ hc h).2

/-- Witness of C10: puts and gets interleaved across two swaps on a fresh
queue of capacity 2. -/
theorem C10_fifo_refinement_witness :
    WellFormed (MessageQueue.new 2 : MessageQueue Nat) ∧
    Fifo.run ⟨absFifo (MessageQueue.new 2), [], []⟩
        [.Put 1, .Put 2, .Get 0, .Put 3, .Get 0, .Get 0]
      = ⟨absFifo (⟨2, 0, [], [], .first, .second⟩ : MessageQueue Nat), [1, 2, 3],
          [some 1, some 2, some 3]⟩ ∧
    absFifo (MessageQueue.new 2) ++ [1, 2, 3]
      = [1, 2, 3] ++ absFifo (⟨2, 0, [], [], .first, .second⟩ : MessageQueue Nat) :=
  ⟨by decide,
    (C10_fifo_refinement (MessageQueue.new 2 : MessageQueue Nat) (by decide)).2.2.2
      [.Put 1, .Put 2, .Get 0, .Put 3, .Get 0, .Get 0]
      ⟨⟨2, 0, [], [], .first, .second⟩, [1, 2, 3], [some 1, some 2, some 3]⟩ (by decide) rfl⟩

/-- C8, the claim as stated fails: on a fresh queue of capacity 3, after
`Put(1), Put(2), Put(3), Get, Put(4), Put(5)` the three `Get` calls that follow
return 2, 3, 4 and not 1, 2, 3 (the `Get` that triggered the swap has already
handed out 1), and after them task 5 is in the consumer buffer. -/
theorem C8_swap_scenario_counterexample :
    ∃ r1 r2 : Run Nat,
      run (Run.start (MessageQueue.new 3)) [.Put 1, .Put 2, .Put 3, .Get 0, .Put 4, .Put 5]
        = .ok r1 ∧
      r1.gets = [some 1] ∧
      run (Run.start r1.queue) [.Get 0, .Get 0, .Get 0] = .ok r2 ∧
      r2.gets = [some 2, some 3, some 4] ∧ r2.gets ≠ [some 1, some 2, some 3] ∧
      getBuffer r2.queue = [5] ∧ putBuffer r2.queue = [] :=
  ⟨⟨⟨3, 0, [2, 3], [4, 5], .second, .first⟩, [1, 2, 3, 4, 5], [some 1]⟩,
    ⟨⟨3, 0, [], [5], .first, .second⟩, [], [some 2, some 3, some 4]⟩,
    rfl, rfl, rfl, rfl, by decide, rfl, rfl⟩

/-- C8 as amended.  On an empty queue of capacity at least 3, in the run
`Put(1), Put(2), Put(3), Get, Put(4), Put(5)` the `Get` performs a swap and
returns 1; the next two `Get` calls return 2 and 3 in that order while 4 and 5
stay in the producer buffer, the consumer buffer being empty after them; the
third `Get` made after the two last `Put` calls performs another swap and
returns 4, leaving 5 in the consumer buffer. -/
theorem C8_swap_scenario (q : MessageQueue Nat) (o1 o2 o3 o4 : Nat) (hq : WellFormed q)
    (hg : getBuffer q = []) (hp : putBuffer q = []) (hcap : 3 ≤ q.msg_max_) :
    ∃ r1, run (Run.start q) [.Put 1, .Put 2, .Put 3, .Get o1, .Put 4, .Put 5] = .ok r1 ∧
      r1.gets = [some 1] ∧ getBuffer r1.queue = [2, 3] ∧ putBuffer r1.queue = [4, 5] ∧
      ∃ r2, run (Run.start r1.queue) [.Get o2, .Get o3] = .ok r2 ∧
        r2.gets = [some 2, some 3] ∧ getBuffer r2.queue = [] ∧ putBuffer r2.queue = [4, 5] ∧
        ∃ r3, run (Run.start r2.queue) [.Get o4] = .ok r3 ∧
          r3.gets = [some 4] ∧ getBuffer r3.queue = [5] ∧ putBuffer r3.queue = [] := by
  obtain ⟨ra, a1, -, a3, a4, a5, a6, a7, -⟩ := run_puts [1, 2, 3] (Run.start q) hq
    (Or.inl (by simp only [Run.start, hp, List.length_nil, List.length_cons]; omega))
  have a4' : putBuffer ra.queue = [1, 2, 3] := by rw [a4]; simp [Run.start, hp]
  have a5' : getBuffer ra.queue = [] := by rw [a5]; exact hg
  obtain ⟨rb, b1, -, b3, b4, b5, b6, b7⟩ := step_Get_swap ra o1 1 [2, 3] a6 a5' a4'
  obtain ⟨rc, c1, -, c3, c4, c5, c6, -, -⟩ := run_puts [4, 5] rb b6
    (Or.inl (by
      rw [b5, b7, a7]
      simp only [Run.start, List.length_nil, List.length_cons]
      omega))
  have hrun1 : run (Run.start q) [.Put 1, .Put 2, .Put 3, .Get o1, .Put 4, .Put 5] = .ok rc := by
    have e : ([.Put 1, .Put 2, .Put 3, .Get o1, .Put 4, .Put 5] : List (Op Nat)) =
        ([1, 2, 3].map Op.Put ++ [.Get o1]) ++ [4, 5].map Op.Put := rfl
    rw [e]
    refine run_append _ rb rc _ _ (run_append _ ra rb _ _ a1 ?_) c1
    rw [run_cons_ok ra rb _ _ b1]
    rfl
  have c4' : putBuffer rc.queue = [4, 5] := by rw [c4, b5]; rfl
  have c5' : getBuffer rc.queue = [2, 3] := by rw [c5, b4]
  refine ⟨rc, hrun1, ?_, c5', c4', ?_⟩
  · rw [c3, b3, a3]
    rfl
  obtain ⟨rd, d1, -, d3, d4, d5, d6⟩ := step_Get_front (Run.start rc.queue) o2 2 [3] c6 c5'
  obtain ⟨re, e1, -, e3, e4, e5, e6⟩ := step_Get_front rd o3 3 [] d6 d4
  have e5' : putBuffer re.queue = [4, 5] := by rw [e5, d5]; exact c4'
  refine ⟨re, ?_, ?_, e4, e5', ?_⟩
  · rw [run_cons_ok _ rd _ _ d1, run_cons_ok _ re _ _ e1]
    rfl
  · rw [e3, d3]
    rfl
  obtain ⟨rf, f1, -, f3, f4, f5, -, -⟩ := step_Get_swap (Run.start re.queue) o4 4 [5] e6 e4 e5'
  refine ⟨rf, ?_, ?_, f4, f5⟩
  · rw [run_cons_ok _ rf _ _ f1]
    rfl
  · rw [f3]
    rfl

/-- Witness of the amended C8: the fresh queue of capacity 3. -/
theorem C8_swap_scenario_witness :
    WellFormed (MessageQueue.new 3 : MessageQueue Nat) ∧
    ∃ r1, run (Run.start (MessageQueue.new 3)) [.Put 1, .Put 2, .Put 3, .Get 0, .Put 4, .Put 5]
        = .ok r1 ∧
      r1.gets = [some 1] ∧ getBuffer r1.queue = [2, 3] ∧ putBuffer r1.queue = [4, 5] ∧
      ∃ r2, run (Run.start r1.queue) [.Get 0, .Get 0] = .ok r2 ∧
        r2.gets = [some 2, some 3] ∧ getBuffer r2.queue = [] ∧ putBuffer r2.queue = [4, 5] ∧
        ∃ r3, run (Run.start r2.queue) [.Get 0] = .ok r3 ∧
          r3.gets = [some 4] ∧ getBuffer r3.queue = [5] ∧ putBuffer r3.queue = [] :=
  ⟨by decide, C8_swap_scenario (MessageQueue.new 3) 0 0 0 0 (by decide) rfl rfl (by decide)⟩

/-- C5, the claim as stated fails: three counter-incrementing tasks are put
into the queue of a pool of capacity 8 and `Destroy` then sets the stop flag
and switches the queue to non-blocking mode; a worker that comes to its loop
test returns at once, without a `Get` that returned false: the counter is
still 0 and the three tasks are still in the queue. -/
theorem C5_shutdown_counterexample :
    ∃ r : Run Unit,
      run (Run.start (Threadpool.new 4 8).tasks_queue_) [.Put (), .Put (), .Put ()] = .ok r ∧
      pending r.queue = 3 ∧
      (DestroyFlags (⟨false, 4, r.queue⟩ : Threadpool Unit)).is_stop_ = true ∧
      (DestroyFlags (⟨false, 4, r.queue⟩ : Threadpool Unit)).tasks_queue_.nonblock_ = 1 ∧
      Routine (fun _ counter => counter + 1) () 100
          (DestroyFlags (⟨false, 4, r.queue⟩ : Threadpool Unit)) 0
        = .ok (DestroyFlags (⟨false, 4, r.queue⟩ : Threadpool Unit), 0) ∧
      pending (DestroyFlags (⟨false, 4, r.queue⟩ : Threadpool Unit)).tasks_queue_ = 3 :=
  ⟨⟨⟨8, 0, [(), (), ()], [], .first, .second⟩, [(), (), ()], []⟩,
    rfl, rfl, rfl, rfl, rfl, rfl⟩

/-- C5 as amended.  Let `Destroy` have set the stop flag and switched the
queue to non-blocking mode, with any number of tasks pending.  A worker leaves
its loop either at the loop test, on reading the stop flag set, or after a
`Get` that returned false.  A worker at the loop test returns at once, runs
none of the pending tasks and leaves them in the queue; this is also what a
worker does that was inside `task()` when the flags were set, once that task
`t` has returned.  A worker that had passed the loop test and stands before
its `Get` runs exactly the oldest pending task and returns at the next loop
test, the other tasks staying in the queue; with nothing pending its `Get`
returns false and it returns with no task run. -/
theorem C5_worker_exit {W : Type} (invoke : α → W → W) (blank : α) (p : Threadpool α)
    (w : W) (fuel : Nat) (hq : WellFormed p.tasks_queue_) :
    (DestroyFlags p).is_stop_ = true ∧ (DestroyFlags p).tasks_queue_.nonblock_ ≠ 0 ∧
    absFifo (DestroyFlags p).tasks_queue_ = absFifo p.tasks_queue_ ∧
    Routine invoke blank (fuel + 1) (DestroyFlags p) w = .ok (DestroyFlags p, w) ∧
    (∀ t, Routine invoke blank (fuel + 1) (DestroyFlags p) (invoke t w)
      = .ok (DestroyFlags p, invoke t w)) ∧
    (∀ x rest, absFifo p.tasks_queue_ = x :: rest →
      ∃ q', RoutineBody invoke blank (Routine invoke blank (fuel + 1)) (DestroyFlags p) w
          = .ok ({ DestroyFlags p with tasks_queue_ := q' }, invoke x w) ∧
        absFifo q' = rest) ∧
    (absFifo p.tasks_queue_ = [] →
      ∃ q', RoutineBody invoke blank (Routine invoke blank fuel) (DestroyFlags p) w
          = .ok ({ DestroyFlags p with tasks_queue_ := q' }, w) ∧
        absFifo q' = []) := by
  have hn : (DestroyFlags p).tasks_queue_.nonblock_ ≠ 0 := by simp [DestroyFlags, SetNonBlock]
  have hq1 : WellFormed (DestroyFlags p).tasks_queue_ := hq
  refine ⟨rfl, hn, rfl, rfl, fun _ => rfl, ?_, ?_⟩
  · intro x rest ha
    obtain ⟨q', hget, hrest, -, -, -⟩ :=
      Get_absFifo_cons (DestroyFlags p).tasks_queue_ blank x rest hq1 ha
    refine ⟨q', ?_, hrest⟩
    simp only [RoutineBody, hget, Bool.not_true, Routine_succ]
    rfl
  · intro ha
    obtain ⟨hg, hp⟩ := absFifo_nil (DestroyFlags p).tasks_queue_ ha
    refine ⟨exchanged (DestroyFlags p).tasks_queue_, ?_, ?_⟩
    · simp only [RoutineBody, Get_of_nil_nil _ blank hg hp, if_neg hn]
      rfl
    · simp [absFifo, getBuffer_exchanged, putBuffer_exchanged, hg, hp]

/-- Witness of the amended C5: a pool whose queue holds two pending tasks that
add 5 and 7 to a counter.  A worker at the loop test runs neither; a worker
that was inside a task adding 100 finishes it and runs neither. -/
theorem C5_worker_exit_witness :
    WellFormed (⟨false, 4, ⟨8, 0, [5, 7], [], .first, .second⟩⟩ : Threadpool Nat).tasks_queue_ ∧
    Routine (fun t counter => counter + t) 0 1
        (DestroyFlags (⟨false, 4, ⟨8, 0, [5, 7], [], .first, .second⟩⟩ : Threadpool Nat)) 0
      = .ok (DestroyFlags (⟨false, 4, ⟨8, 0, [5, 7], [], .first, .second⟩⟩ : Threadpool Nat), 0) ∧
    Routine (fun t counter => counter + t) 0 1
        (DestroyFlags (⟨false, 4, ⟨8, 0, [5, 7], [], .first, .second⟩⟩ : Threadpool Nat))
        ((fun t counter => counter + t) 100 0)
      = .ok (DestroyFlags (⟨false, 4, ⟨8, 0, [5, 7], [], .first, .second⟩⟩ : Threadpool Nat),
          (fun t counter => counter + t) 100 0) :=
  ⟨by decide,
    (C5_worker_exit (fun t counter => counter + t) 0
      (⟨false, 4, ⟨8, 0, [5, 7], [], .first, .second⟩⟩ : Threadpool Nat) 0 0
      (by decide)).2.2.2.1,
    (C5_worker_exit (fun t counter => counter + t) 0
      (⟨false, 4, ⟨8, 0, [5, 7], [], .first, .second⟩⟩ : Threadpool Nat) 0 0
      (by decide)).2.2.2.2.1 100⟩

end Claims

end MQ
